import Mathlib

/-!
Verification of `src/scripts/update_performance.js` against its specification.

Shallow embedding conventions:
* A UTC calendar day is its day number: the count of days since 1970-01-01
  (an `ℤ`).  A JS `Date` truncated to midnight UTC is exactly such a number,
  `Date.prototype.getUTCDay` is `(n + 4) % 7` (1970-01-01 was a Thursday),
  and `isoDate` is the canonical (strictly monotone, injective) rendering of
  a day number, so facts about labels are stated on day numbers.
* JS numbers are modelled by `ℚ` (the idealisation of the script's float
  arithmetic); `toFixed(k)` followed by `Number(...)` is rounding to `k`
  decimal digits.
* A fetched price series (a JS object keyed by ISO date strings) is an
  association list `List (α × ℚ)`; the functions that walk it are
  polymorphic in the date key `α` with its linear order, instantiated at
  `String` (the lexicographic comparison the script uses) or at day
  numbers `ℤ`.
* Fallible values (`null` / missing object entries) are `Option`.
-/

namespace UpdatePerformance

/-- JS `Date.prototype.getUTCDay` on a day number: Sun = 0 … Fri = 5, Sat = 6.
1970-01-01 (day 0) was a Thursday (= 4). -/
def jsGetUTCDay (n : ℤ) : ℤ := (n + 4) % 7

/-- Embeds `mostRecentFridayUTC` (source lines 52–58): truncation to the UTC
calendar day is the passage to the day number; `diff` is taken off the input. -/
def mostRecentFridayUTC (n : ℤ) : ℤ :=
  n - (if jsGetUTCDay n ≥ 5 then jsGetUTCDay n - 5 else 7 - (5 - jsGetUTCDay n))

/-- Embeds `buildWeeklyLabels` (source lines 66–72): the loop runs
`i = weeks-1, …, 0` and pushes `isoDate(endFriday - i*7 days)`, so the j-th
pushed label is `endFriday - (weeks-1-j)*7`. -/
def buildWeeklyLabels (endFriday : ℤ) (weeks : ℕ) : List ℤ :=
  (List.range weeks).map fun j => endFriday - ((weeks - 1 - j : ℕ) : ℤ) * 7

theorem buildWeeklyLabels_length (e : ℤ) (N : ℕ) : (buildWeeklyLabels e N).length = N := by
  simp [buildWeeklyLabels]

theorem buildWeeklyLabels_getElem? (e : ℤ) {N k : ℕ} (hk : k < N) :
    (buildWeeklyLabels e N)[k]? = some (e - ((N - 1 - k : ℕ) : ℤ) * 7) := by
  simp [buildWeeklyLabels, List.getElem?_map, List.getElem?_range, hk]

theorem buildWeeklyLabels_pairwise (e : ℤ) (N : ℕ) :
    (buildWeeklyLabels e N).Pairwise (· < ·) := by
  unfold buildWeeklyLabels
  rw [List.pairwise_map]
  refine (List.pairwise_lt_range N).imp_of_mem ?_
  intro a b ha hb hab
  have ha2 := List.mem_range.mp ha
  have hb2 := List.mem_range.mp hb
  omega

theorem buildWeeklyLabels_getLast? (e : ℤ) {N : ℕ} (hN : 0 < N) :
    (buildWeeklyLabels e N).getLast? = some e := by
  rw [List.getLast?_eq_getElem?, buildWeeklyLabels_length,
    buildWeeklyLabels_getElem? e (by omega : N - 1 < N)]
  simp [Nat.sub_self]

/-- Embeds `priceOnOrBefore` (source lines 118–133): collect the keys, return
`null` on an empty object, sort the keys descending (the comparator
`(a, b) => (a < b ? 1 : -1)`), and return the value of the first key that is
`≤ targetISO`.  `seriesObj[d]` is association-list lookup of the key `d`.
Polymorphic in the date key `α`; the script compares ISO date strings. -/
def priceOnOrBefore {α : Type} [LinearOrder α] (seriesObj : List (α × ℚ)) (targetISO : α) :
    Option ℚ :=
  let dates := seriesObj.map Prod.fst
  if dates.length = 0 then none
  else
    ((dates.insertionSort (· ≥ ·)).find? (fun d => decide (d ≤ targetISO))).bind
      fun d => (seriesObj.find? (fun kv => decide (kv.1 = d))).map Prod.snd

theorem find?_le_first {α : Type} [LinearOrder α] (target d : α) :
    ∀ l : List α, l.Sorted (· ≥ ·) →
      l.find? (fun x => decide (x ≤ target)) = some d →
      ∀ x ∈ l, x ≤ target → x ≤ d := by
  intro l
  induction l with
  | nil => intro _ h; simp at h
  | cons y ys ih =>
    intro hs hf x hx hxle
    by_cases hy : y ≤ target
    · rw [List.find?_cons_of_pos _ (by simpa using hy)] at hf
      obtain rfl : y = d := by simpa using hf
      rcases List.mem_cons.mp hx with rfl | hx
      · exact le_refl x
      · exact List.rel_of_sorted_cons hs x hx
    · rw [List.find?_cons_of_neg _ (by simpa using hy)] at hf
      rcases List.mem_cons.mp hx with rfl | hx
      · exact absurd hxle hy
      · exact ih hs.of_cons hf x hx hxle

/-- C5: for every timestamp, `mostRecentFridayUTC` returns a day that is a
Friday (UTC), is at most the input day, is within 6 days of it, and equals the
input day when that day is itself a Friday. -/
theorem mostRecentFridayUTC_spec (n : ℤ) :
    mostRecentFridayUTC n ≤ n ∧ n - mostRecentFridayUTC n ≤ 6 ∧
    jsGetUTCDay (mostRecentFridayUTC n) = 5 ∧
    (jsGetUTCDay n = 5 → mostRecentFridayUTC n = n) := by
  unfold mostRecentFridayUTC jsGetUTCDay
  split <;> omega

/-- C6: for every end day and positive week count `N`, `buildWeeklyLabels`
returns exactly `N` labels, the last equal to the end day, each label exactly
7 days after the previous, and the whole list strictly increasing. -/
theorem buildWeeklyLabels_spec (e : ℤ) (N : ℕ) (hN : 0 < N) :
    (buildWeeklyLabels e N).length = N ∧
    (buildWeeklyLabels e N).getLast? = some e ∧
    (∀ k, k + 1 < N →
      (buildWeeklyLabels e N)[k + 1]? = ((buildWeeklyLabels e N)[k]?).map (fun a => a + 7)) ∧
    (buildWeeklyLabels e N).Pairwise (· < ·) := by
  refine ⟨buildWeeklyLabels_length e N, buildWeeklyLabels_getLast? e hN, ?_,
    buildWeeklyLabels_pairwise e N⟩
  intro k hk
  rw [buildWeeklyLabels_getElem? e hk, buildWeeklyLabels_getElem? e (by omega : k < N)]
  simp only [Option.map_some']
  congr 1
  omega

/-- C6 witness: the hypotheses of `buildWeeklyLabels_spec` discharged at the
concrete input `e = 19734` (2024-01-12), `N = 3`. -/
theorem buildWeeklyLabels_spec_witness :
    (buildWeeklyLabels 19734 3).length = 3 ∧ (buildWeeklyLabels 19734 3).getLast? = some 19734 :=
  ⟨(buildWeeklyLabels_spec 19734 3 (by decide)).1, (buildWeeklyLabels_spec 19734 3 (by decide)).2.1⟩

/-- C7: `priceOnOrBefore` is absent exactly when no key of the series is
`≤` the target (in particular on an empty series); when it returns a value,
that value belongs to a key that is `≤` the target and maximal among all such
keys (latest date on or before the target, under the lexicographic order of
the fixed-width ISO strings); and on the series
`{2024-01-05: 10, 2024-01-12: 11}` with target `2024-01-10` it returns 10. -/
theorem priceOnOrBefore_spec (series : List (String × ℚ)) (target : String) :
    (priceOnOrBefore series target = none ↔ ∀ kv ∈ series, ¬ kv.1 ≤ target) ∧
    (∀ v, priceOnOrBefore series target = some v →
      ∃ kv ∈ series, kv.2 = v ∧ kv.1 ≤ target ∧
        ∀ kv2 ∈ series, kv2.1 ≤ target → kv2.1 ≤ kv.1) ∧
    priceOnOrBefore [("2024-01-05", (10 : ℚ)), ("2024-01-12", 11)] "2024-01-10" = some 10 := by
  refine ⟨?_, ?_, ?_⟩
  · by_cases hemp : (series.map Prod.fst).length = 0
    · have hnil : series = [] := by
        rw [List.length_map] at hemp
        exact List.length_eq_zero.mp hemp
      subst hnil
      simp [priceOnOrBefore]
    · unfold priceOnOrBefore
      simp only [if_neg hemp]
      cases hf : ((series.map Prod.fst).insertionSort (· ≥ ·)).find?
          (fun d => decide (d ≤ target)) with
      | none =>
        rw [List.find?_eq_none] at hf
        constructor
        · intro _ kv hkv
          have : kv.1 ∈ (series.map Prod.fst).insertionSort (· ≥ ·) :=
            (List.mem_insertionSort _).mpr (List.mem_map_of_mem Prod.fst hkv)
          simpa using hf kv.1 this
        · intro _; rfl
      | some d =>
        have hd_mem : d ∈ series.map Prod.fst :=
          (List.mem_insertionSort _).mp (List.mem_of_find?_eq_some hf)
        have hd_le : d ≤ target := by simpa using List.find?_some hf
        obtain ⟨kv, hkv_mem, hkv_eq⟩ := List.mem_map.mp hd_mem
        simp only [Option.some_bind]
      -- both sides of the iff are false
        constructor
        · intro h
          rw [Option.map_eq_none', List.find?_eq_none] at h
          have h2 := h kv hkv_mem
          simp [hkv_eq] at h2
        · intro h
          exact absurd hd_le (by simpa [hkv_eq] using h kv hkv_mem)
  · intro v hv
    unfold priceOnOrBefore at hv
    by_cases hemp : (series.map Prod.fst).length = 0
    · rw [if_pos hemp] at hv
      simp at hv
    · rw [if_neg hemp] at hv
      cases hf : ((series.map Prod.fst).insertionSort (· ≥ ·)).find?
          (fun d => decide (d ≤ target)) with
      | none => rw [hf, Option.none_bind] at hv; exact absurd hv (by simp)
      | some d =>
        rw [hf, Option.some_bind] at hv
        obtain ⟨kv, hkv_find, hkv_snd⟩ := Option.map_eq_some'.mp hv
        have hkv_mem : kv ∈ series := List.mem_of_find?_eq_some hkv_find
        have hkv_key : kv.1 = d := by simpa using List.find?_some hkv_find
        have hd_le : d ≤ target := by simpa using List.find?_some hf
        refine ⟨kv, hkv_mem, hkv_snd, hkv_key ▸ hd_le, ?_⟩
        intro kv2 hkv2 hkv2_le
        have hmem2 : kv2.1 ∈ (series.map Prod.fst).insertionSort (· ≥ ·) :=
          (List.mem_insertionSort _).mpr (List.mem_map_of_mem Prod.fst hkv2)
        have hsorted : ((series.map Prod.fst).insertionSort (· ≥ ·)).Sorted (· ≥ ·) :=
          List.sorted_insertionSort _ _
        rw [hkv_key]
        exact find?_le_first target d _ hsorted hf kv2.1 hmem2 hkv2_le
  · have h1 : ¬ ("2024-01-05" : String) ≥ "2024-01-12" := by
      rw [ge_iff_le, String.le_iff_toList_le]; decide
    have h2 : ¬ ("2024-01-12" : String) ≤ "2024-01-10" := by
      rw [String.le_iff_toList_le]; decide
    have h3 : ("2024-01-05" : String) ≤ "2024-01-10" := by
      rw [String.le_iff_toList_le]; decide
    simp only [priceOnOrBefore, List.map_cons, List.map_nil, List.insertionSort,
      List.orderedInsert, if_neg h1, List.find?]
    rw [if_neg (by simp)]
    rw [decide_eq_false h2, decide_eq_true h3]
    simp

/-- A portfolio entry as the script reads it from `holdings.json`: `ticker`
is `String(h.ticker || "")` (a missing ticker is the empty string), `weight`
is the number `Number(h.weight) || 0` coerces to, and the remaining fields
are opaque display strings. -/
structure Holding where
  ticker : String
  name : String
  weight : ℚ
  assetClass : String
  region : String
  deriving DecidableEq

/-- JS `String.prototype.includes` on the character list: the needle occurs
contiguously somewhere in the haystack. -/
def hasSubList (needle : List Char) : List Char → Bool
  | [] => needle.isEmpty
  | c :: rest => needle.isPrefixOf (c :: rest) || hasSubList needle rest

/-- JS `s.includes(sub)`. -/
def jsIncludes (s sub : String) : Bool := hasSubList sub.toList s.toList

/-- The pseudo-holding filter predicate (source lines 180–184): keep a raw
holding unless its uppercased ticker is empty, contains `CASH` or `HEDGE`,
or equals `USD` or `USD-CASH`. -/
def keepHolding (ticker : String) : Bool :=
  let t := ticker.toUpper
  if t = "" then false
  else if jsIncludes t "CASH" || jsIncludes t "HEDGE" || (t == "USD") || (t == "USD-CASH") then
    false
  else true

/-- Embeds the `holdings` preparation (source lines 180–189): filter out
pseudo-holdings, then normalise the ticker to upper case (the
`Number(h.weight) || 0` coercion is the identity on the already-numeric
`weight` field of the model). -/
def filteredHoldings (holdingsRaw : List Holding) : List Holding :=
  (holdingsRaw.filter fun h => keepHolding h.ticker).map fun h =>
    { h with ticker := h.ticker.toUpper }

/-- One iteration of the loop in `portfolioPriceAtDate` (source lines
140–155): skip an empty normalised ticker or a non-positive weight, resolve
the price with `priceOnOrBefore` (a missing series entry resolves to `null`),
and accumulate `weight * price` and the covered weight; a holding with no
resolvable price contributes nothing.  (`Number.isFinite(px)` always holds in
the `ℚ` model.) -/
def portfolioStep {α : Type} [LinearOrder α] (seriesByTicker : String → Option (List (α × ℚ)))
    (dateISO : α) (acc : ℚ × ℚ) (h : Holding) : ℚ × ℚ :=
  if h.ticker.trim.toUpper = "" ∨ h.weight ≤ 0 then acc
  else
    match (seriesByTicker h.ticker.trim.toUpper).bind
        (fun series => priceOnOrBefore series dateISO) with
    | some px => (acc.1 + h.weight * px, acc.2 + h.weight)
    | none => acc

/-- Embeds `portfolioPriceAtDate` (source lines 136–158): fold the loop body
over the holdings starting from `total = 0`, `coveredWeight = 0`. -/
def portfolioPriceAtDate {α : Type} [LinearOrder α] (holdings : List Holding)
    (seriesByTicker : String → Option (List (α × ℚ))) (dateISO : α) : ℚ × ℚ :=
  holdings.foldl (portfolioStep seriesByTicker dateISO) (0, 0)

/-- The price resolution a holding undergoes inside `portfolioPriceAtDate`
(source lines 141–146): an empty normalised ticker resolves no price; else
look the ticker up in `seriesByTicker` and apply `priceOnOrBefore`. -/
def resolvedPrice {α : Type} [LinearOrder α] (seriesByTicker : String → Option (List (α × ℚ)))
    (dateISO : α) (h : Holding) : Option ℚ :=
  if h.ticker.trim.toUpper = "" then none
  else (seriesByTicker h.ticker.trim.toUpper).bind fun series => priceOnOrBefore series dateISO

theorem portfolioPriceAtDate_foldl {α : Type} [LinearOrder α]
    (s : String → Option (List (α × ℚ))) (d : α) :
    ∀ (l : List Holding) (acc : ℚ × ℚ),
      l.foldl (portfolioStep s d) acc =
        (acc.1 + ((l.filter fun h => decide (0 < h.weight) && (resolvedPrice s d h).isSome).map
            fun h => h.weight * (resolvedPrice s d h).getD 0).sum,
         acc.2 + ((l.filter fun h => decide (0 < h.weight) && (resolvedPrice s d h).isSome).map
            fun h => h.weight).sum) := by
  intro l
  induction l with
  | nil => intro acc; simp
  | cons h0 rest ih =>
    intro acc
    rw [List.foldl_cons, ih]
    by_cases hskip : h0.ticker.trim.toUpper = "" ∨ h0.weight ≤ 0
    · have hcontrib : (decide (0 < h0.weight) && (resolvedPrice s d h0).isSome) = false := by
        rcases hskip with he | hw
        · simp [resolvedPrice, he]
        · simp [decide_eq_false (not_lt.mpr hw)]
      rw [portfolioStep, if_pos hskip]
      simp [List.filter_cons, hcontrib]
    · push_neg at hskip
      obtain ⟨hne, hwpos⟩ := hskip
      have hres : resolvedPrice s d h0 =
          (s h0.ticker.trim.toUpper).bind fun series => priceOnOrBefore series d := by
        rw [resolvedPrice, if_neg hne]
      have hnot : ¬ (h0.ticker.trim.toUpper = "" ∨ h0.weight ≤ 0) := by
        push_neg
        exact ⟨hne, hwpos⟩
      rw [portfolioStep, if_neg hnot]
      cases hpx : (s h0.ticker.trim.toUpper).bind fun series => priceOnOrBefore series d with
      | none =>
        have hcontrib : (decide (0 < h0.weight) && (resolvedPrice s d h0).isSome) = false := by
          simp [hres, hpx]
        simp [List.filter_cons, hcontrib]
      | some px =>
        have hcontrib : (decide (0 < h0.weight) && (resolvedPrice s d h0).isSome) = true := by
          simp [hres, hpx, hwpos]
        dsimp only
        have hfil : List.filter (fun h => decide (0 < h.weight) && (resolvedPrice s d h).isSome)
            (h0 :: rest) =
            h0 :: List.filter (fun h => decide (0 < h.weight) && (resolvedPrice s d h).isSome)
              rest := by
          simp [List.filter_cons, hcontrib]
        rw [hfil]
        simp only [List.map_cons, List.sum_cons, hres, hpx, Option.getD_some]
        refine Prod.ext ?_ ?_ <;> simp <;> ring

/-- C8: `portfolioPriceAtDate` returns exactly the pair (sum of
`weight * price` over the holdings with positive weight and a resolvable
price at the date, sum of those same holdings' weights); holdings with
non-positive weight or no resolvable price contribute to neither.  On the
example holdings `[(weight 0.6, price 10), (weight 0.4, price missing)]` the
result is total 6 and covered weight 0.6. -/
theorem portfolioPriceAtDate_spec {α : Type} [LinearOrder α] (holdings : List Holding)
    (seriesByTicker : String → Option (List (α × ℚ))) (dateISO : α) :
    portfolioPriceAtDate holdings seriesByTicker dateISO =
      (((holdings.filter fun h =>
            decide (0 < h.weight) && (resolvedPrice seriesByTicker dateISO h).isSome).map
          fun h => h.weight * (resolvedPrice seriesByTicker dateISO h).getD 0).sum,
       ((holdings.filter fun h =>
            decide (0 < h.weight) && (resolvedPrice seriesByTicker dateISO h).isSome).map
          fun h => h.weight).sum) ∧
    portfolioPriceAtDate
      [{ ticker := "AAA", name := "a", weight := 3/5, assetClass := "", region := "" },
       { ticker := "BBB", name := "b", weight := 2/5, assetClass := "", region := "" }]
      (fun t => if t = "AAA" then some [((19727 : ℤ), (10 : ℚ))] else none) (19732 : ℤ) =
      (6, 3/5) := by
  constructor
  · rw [portfolioPriceAtDate, portfolioPriceAtDate_foldl]
    simp
  · with_unfolding_all rfl

/-- C9 counterexample: a raw entry whose ticker is the empty string is
excluded from price fetching (the filter drops it, so it is never fetched),
yet its uppercased ticker neither contains `CASH` or `HEDGE` nor equals
`USD` or `USD-CASH` — so exclusion does not hold *exactly* on that
condition. -/
theorem pseudoFilter_counterexample :
    filteredHoldings
      [{ ticker := "", name := "Cash row", weight := 1, assetClass := "Cash", region := "US" }] =
      [] ∧
    (jsIncludes ("" : String).toUpper "CASH" || jsIncludes ("" : String).toUpper "HEDGE" ||
      (("" : String).toUpper == "USD") || (("" : String).toUpper == "USD-CASH")) = false := by
  constructor
  · with_unfolding_all rfl
  · with_unfolding_all rfl

/-- C9 amended: a raw holding is excluded from price fetching exactly when
its uppercased ticker is empty, or contains `CASH` or `HEDGE`, or equals
`USD` or `USD-CASH`; in particular `USD-CASH` and `CASHHEDGE1` are excluded
while `BRK-B` is kept despite its hyphen. -/
theorem keepHolding_spec (t : String) :
    (keepHolding t = false ↔
      (t.toUpper = "" ∨ jsIncludes t.toUpper "CASH" = true ∨ jsIncludes t.toUpper "HEDGE" = true ∨
        t.toUpper = "USD" ∨ t.toUpper = "USD-CASH")) ∧
    keepHolding "USD-CASH" = false ∧ keepHolding "CASHHEDGE1" = false ∧
    keepHolding "BRK-B" = true := by
  refine ⟨?_, by with_unfolding_all rfl, by with_unfolding_all rfl, by with_unfolding_all rfl⟩
  unfold keepHolding
  by_cases h0 : t.toUpper = ""
  · simp [h0]
  · simp only [if_neg h0]
    by_cases h1 : (jsIncludes t.toUpper "CASH" || jsIncludes t.toUpper "HEDGE" ||
        (t.toUpper == "USD") || (t.toUpper == "USD-CASH")) = true
    · rw [if_pos h1]
      simp only [Bool.or_eq_true, beq_iff_eq] at h1
      constructor
      · intro _
        rcases h1 with ((hc | hh) | hu) | huc
        · exact Or.inr (Or.inl hc)
        · exact Or.inr (Or.inr (Or.inl hh))
        · exact Or.inr (Or.inr (Or.inr (Or.inl hu)))
        · exact Or.inr (Or.inr (Or.inr (Or.inr huc)))
      · intro _; rfl
    · rw [if_neg h1]
      simp only [Bool.or_eq_true, beq_iff_eq, not_or] at h1
      obtain ⟨⟨⟨hc, hh⟩, hu⟩, huc⟩ := h1
      simp [h0, hc, hh, hu, huc]

/-- The holding snapshot written into the output document (source lines
259–266). -/
structure Snapshot where
  ticker : String
  name : String
  weight : ℚ
  price : Option ℚ
  assetClass : String
  region : String
  deriving DecidableEq

/-- Embeds `enrichedHoldings` (source lines 254–267): map over *all* raw
entries (pseudo-holdings included) in input order, keeping the original
ticker string; the price is the latest fetched price of the uppercased
ticker (`null` for an empty ticker, and both a missing map entry and a
stored `null` are `none`; `Number(px)` is the identity on `ℚ`). -/
def enrichedHoldings (holdingsRaw : List Holding) (latestPriceByTicker : String → Option ℚ) :
    List Snapshot :=
  holdingsRaw.map fun h =>
    { ticker := h.ticker, name := h.name, weight := h.weight,
      price := if h.ticker.toUpper = "" then none else latestPriceByTicker h.ticker.toUpper,
      assetClass := h.assetClass, region := h.region }

/-- C10: the persisted holdings array has one snapshot per raw input entry,
in input order, with the original (non-uppercased) ticker string and the
other display fields preserved — pseudo-holdings included — and a snapshot's
price is `null` whenever no latest fetched price exists for the entry's
uppercased ticker. -/
theorem enrichedHoldings_spec (raw : List Holding) (latest : String → Option ℚ) :
    (enrichedHoldings raw latest).length = raw.length ∧
    (∀ (k : ℕ) (h : Holding), raw[k]? = some h →
      ∃ snap : Snapshot, (enrichedHoldings raw latest)[k]? = some snap ∧
        snap.ticker = h.ticker ∧ snap.name = h.name ∧ snap.weight = h.weight ∧
        snap.assetClass = h.assetClass ∧ snap.region = h.region ∧
        (latest h.ticker.toUpper = none → snap.price = none)) := by
  constructor
  · simp [enrichedHoldings]
  · intro k h hk
    have hsnap : (enrichedHoldings raw latest)[k]? = some
        { ticker := h.ticker, name := h.name, weight := h.weight,
          price := if h.ticker.toUpper = "" then none else latest h.ticker.toUpper,
          assetClass := h.assetClass, region := h.region } := by
      simp [enrichedHoldings, List.getElem?_map, hk]
    refine ⟨_, hsnap, rfl, rfl, rfl, rfl, rfl, ?_⟩
    intro hl
    rw [hl]
    simp

/-- JS `Number(x.toFixed(k))` in the `ℚ` model: rounding to `k` decimal
digits (`round` is round-half-up, the idealisation of `toFixed`). -/
def roundTo (k : ℕ) (x : ℚ) : ℚ := ((round (x * 10 ^ k) : ℤ) : ℚ) / 10 ^ k

/-- The parsed `holdings.json` (source lines 176–177 and 270–271): optional
base currency and base index plus the raw holdings array (a missing or
non-array `holdings` field is the empty list). -/
structure HoldingsData where
  baseCurrency : Option String
  baseIndex : Option ℚ
  holdings : List Holding
  deriving DecidableEq

/-- `latest.index` / `latest.changePct` as persisted (source lines 277–280). -/
structure Latest where
  index : ℚ
  changePct : ℚ
  deriving DecidableEq

/-- The document the script writes to `performance.json` (source lines
269–289); the two metadata fields `_historyAsOfFridayUTC` and
`_baselinePortfolioPrice` keep their values, `_historySource` its constant
string. -/
structure PerfDoc where
  baseCurrency : String
  baseIndex : ℚ
  labels : List ℤ
  longTermIndex : List ℚ
  latest : Latest
  holdings : List Snapshot
  historySource : String
  historyAsOfFridayUTC : ℤ
  baselinePortfolioPrice : ℚ
  deriving DecidableEq

/-- The key set of the JSON object written to `performance.json` (source
lines 269–289): exactly these keys are persisted. -/
def perfDocKeys : List String :=
  ["baseCurrency", "baseIndex", "labels", "longTermIndex", "latest", "holdings",
    "_historySource", "_historyAsOfFridayUTC", "_baselinePortfolioPrice"]

/-- `labels` of the run (source lines 232–233). -/
def perfLabels (now : ℤ) : List ℤ := buildWeeklyLabels (mostRecentFridayUTC now) 52

/-- `weeklyPrices` (source line 236): the portfolio price at each label. -/
def weeklyPrices (hd : HoldingsData) (seriesByTicker : String → Option (List (ℤ × ℚ)))
    (now : ℤ) : List (ℚ × ℚ) :=
  (perfLabels now).map fun d =>
    portfolioPriceAtDate (filteredHoldings hd.holdings) seriesByTicker d

/-- `weeklyPrices.find(p => p.total > 0) || { total: 1, coveredWeight: 0 }`
(source line 239). -/
def firstNonZero (w : List (ℚ × ℚ)) : ℚ × ℚ :=
  (w.find? fun p => decide (0 < p.1)).getD (1, 0)

/-- `firstNonZero.total || 1` (source line 240): JS `||` turns a zero total
into 1. -/
def baselinePortfolioPrice (w : List (ℚ × ℚ)) : ℚ :=
  if (firstNonZero w).1 = 0 then 1 else (firstNonZero w).1

/-- `longTermIndex` (source lines 242–245): each weekly total normalised by
the baseline, times 100, rounded to 4 digits. -/
def longTermIndex (hd : HoldingsData) (seriesByTicker : String → Option (List (ℤ × ℚ)))
    (now : ℤ) : List ℚ :=
  (weeklyPrices hd seriesByTicker now).map fun p =>
    roundTo 4 (p.1 / baselinePortfolioPrice (weeklyPrices hd seriesByTicker now) * 100)

/-- `longTermIndex[longTermIndex.length - 1]` (source line 247); the list
always has 52 entries, so the 0 default is never taken. -/
def latestIndex (lti : List ℚ) : ℚ := lti.getLast?.getD 0

/-- `longTermIndex[0] || 100` (source line 248). -/
def firstIndex (lti : List ℚ) : ℚ :=
  match lti.head? with
  | some x => if x = 0 then 100 else x
  | none => 100

/-- `changePct` (source line 249). -/
def changePct (lti : List ℚ) : ℚ := (latestIndex lti / firstIndex lti - 1) * 100

/-- Embeds the document assembly (source lines 229–291).  The fetch loop's
outcome enters as `seriesByTicker` (the per-ticker weekly series the run
ended up with, from fetch or cache) and `latestPriceByTicker` (the newest
fetched price per ticker); `now` is the run's clock.  The JS `||` defaults
replace a missing or falsy (empty / zero) value. -/
def buildPerf (hd : HoldingsData) (seriesByTicker : String → Option (List (ℤ × ℚ)))
    (latestPriceByTicker : String → Option ℚ) (now : ℤ) : PerfDoc :=
  { baseCurrency :=
      match hd.baseCurrency with
      | some c => if c = "" then "USD" else c
      | none => "USD",
    baseIndex :=
      match hd.baseIndex with
      | some b => if b = 0 then 100 else b
      | none => 100,
    labels := perfLabels now,
    longTermIndex := longTermIndex hd seriesByTicker now,
    latest :=
      { index := roundTo 2 (latestIndex (longTermIndex hd seriesByTicker now)),
        changePct := roundTo 2 (changePct (longTermIndex hd seriesByTicker now)) },
    holdings := enrichedHoldings hd.holdings latestPriceByTicker,
    historySource := "AlphaVantage: TIME_SERIES_WEEKLY_ADJUSTED",
    historyAsOfFridayUTC := mostRecentFridayUTC now,
    baselinePortfolioPrice :=
      roundTo 6 (baselinePortfolioPrice (weeklyPrices hd seriesByTicker now)) }

/-- One whole run's effect on the persisted document (source lines 163–293):
the script never reads `PERF_PATH` — `readJsonSafe` is applied only to the
holdings file and the per-ticker cache files — so the document it writes is
`buildPerf` of the run's inputs, whatever the prior document was. -/
def runUpdate (prior : Option PerfDoc) (hd : HoldingsData)
    (seriesByTicker : String → Option (List (ℤ × ℚ)))
    (latestPriceByTicker : String → Option ℚ) (now : ℤ) : PerfDoc :=
  buildPerf hd seriesByTicker latestPriceByTicker now

theorem perfLabels_length (now : ℤ) : (perfLabels now).length = 52 := by
  rw [perfLabels, buildWeeklyLabels_length]

theorem weeklyPrices_length (hd : HoldingsData) (s : String → Option (List (ℤ × ℚ)))
    (now : ℤ) : (weeklyPrices hd s now).length = 52 := by
  rw [weeklyPrices, List.length_map, perfLabels_length]

theorem longTermIndex_length (hd : HoldingsData) (s : String → Option (List (ℤ × ℚ)))
    (now : ℤ) : (longTermIndex hd s now).length = 52 := by
  rw [longTermIndex, List.length_map, weeklyPrices_length]

/-- A persisted one-point prior document, for the C1 counterexample. -/
def c1Prior : PerfDoc :=
  { baseCurrency := "USD", baseIndex := 100, labels := [19727], longTermIndex := [100],
    latest := { index := 100, changePct := 0 }, holdings := [],
    historySource := "AlphaVantage: TIME_SERIES_WEEKLY_ADJUSTED",
    historyAsOfFridayUTC := 19727, baselinePortfolioPrice := 1 }

/-- An input holdings file with no entries, for the C1 counterexample. -/
def c1Inputs : HoldingsData := { baseCurrency := none, baseIndex := none, holdings := [] }

/-- C1 counterexample: at 2024-01-12 (day 19734, a Friday), with a persisted
one-point series whose newest label 19727 (2024-01-05) differs from the
current week's label, the run does not append one point to the prior series
(which would give length 2): it writes a document with 52 fresh labels. -/
theorem c1_counterexample :
    c1Prior.labels.getLast? = some 19727 ∧
    mostRecentFridayUTC 19734 = 19734 ∧
    (19727 : ℤ) ≠ 19734 ∧
    (runUpdate (some c1Prior) c1Inputs (fun _ => none) (fun _ => none) 19734).labels.length =
      52 ∧
    c1Prior.labels.length + 1 = 2 ∧
    (52 : ℕ) ≠ 2 := by
  exact ⟨rfl, by decide, by decide, perfLabels_length 19734, rfl, by decide⟩

/-- C1 corrected/amended: the update never merges with or appends to the
persisted series — the document a run writes is independent of the prior
document; every run rebuilds a full 52-label weekly window with pairwise
distinct labels ending at the current week's Friday.  Hence a same-week
re-run with the same inputs rewrites an identical document (series length
still 52, no duplicate label, values merely recomputed), and a new week does
not append to the old series but yields a fresh 52-point window. -/
theorem runUpdate_rebuilds (prior prior2 : Option PerfDoc) (hd : HoldingsData)
    (s : String → Option (List (ℤ × ℚ))) (lp : String → Option ℚ) (now : ℤ) :
    runUpdate prior hd s lp now = runUpdate prior2 hd s lp now ∧
    (runUpdate prior hd s lp now).labels.length = 52 ∧
    (runUpdate prior hd s lp now).labels.Nodup ∧
    (runUpdate prior hd s lp now).labels.getLast? = some (mostRecentFridayUTC now) := by
  refine ⟨rfl, perfLabels_length now, ?_, buildWeeklyLabels_getLast? _ (by norm_num)⟩
  exact (buildWeeklyLabels_pairwise _ _).imp ne_of_lt

/-- An input holdings file with one priced asset, for the C2 and C3
counterexamples. -/
def cexHoldings : HoldingsData :=
  { baseCurrency := none, baseIndex := none,
    holdings :=
      [{ ticker := "AAA", name := "Asset A", weight := 1, assetClass := "Equity",
         region := "US" }] }

/-- A fetched series for AAA whose earliest price (at day 19384) lies one
week after the 52-week window's first label (19377). -/
def c2Series : String → Option (List (ℤ × ℚ)) :=
  fun t => if t = "AAA" then some [(19384, 50)] else none

/-- A same-week refetch of AAA with a longer history that also covers the
window's first label. -/
def c2SeriesFull : String → Option (List (ℤ × ℚ)) :=
  fun t => if t = "AAA" then some [(19384, 50), (19377, 25)] else none

/-- C2 counterexample: at 2024-01-12 the first computed weekly portfolio
price is 0 (no data at the window's first label), so the claim's baseline
rule "the first computed portfolio price, or 1 if that price is zero" gives
1 — but the script skips the zero week and records 50, the first *positive*
total.  And the baseline is not reused unchanged by later runs: the same
run-date with a fuller fetched history recomputes it to 25. -/
theorem c2_counterexample :
    (weeklyPrices cexHoldings c2Series 19734).head? = some (0, 0) ∧
    (buildPerf cexHoldings c2Series (fun _ => none) 19734).baselinePortfolioPrice = 50 ∧
    ((50 : ℚ) ≠ 1) ∧
    (buildPerf cexHoldings c2SeriesFull (fun _ => none) 19734).baselinePortfolioPrice = 25 ∧
    ((25 : ℚ) ≠ 50) := by
  refine ⟨?_, ?_, by decide, ?_, by decide⟩
  · with_unfolding_all rfl
  · with_unfolding_all rfl
  · with_unfolding_all rfl

theorem find?_first_spec {β : Type} (p : β → Bool) :
    ∀ (l : List β) (a : β), l.find? p = some a →
      ∃ k, ∃ hk : k < l.length, l.get ⟨k, hk⟩ = a ∧ p a = true ∧
        ∀ j, ∀ hj : j < k, p (l.get ⟨j, by omega⟩) = false := by
  intro l
  induction l with
  | nil => intro a h; simp at h
  | cons x xs ih =>
    intro a h
    by_cases hx : p x = true
    · rw [List.find?_cons_of_pos _ hx] at h
      obtain rfl : x = a := by simpa using h
      exact ⟨0, by simp, rfl, hx, fun j hj => absurd hj (Nat.not_lt_zero j)⟩
    · rw [List.find?_cons_of_neg _ (by simpa using hx)] at h
      obtain ⟨k, hk, hget, hpa, hprev⟩ := ih a h
      refine ⟨k + 1, by simpa using Nat.succ_lt_succ hk, by simpa using hget, hpa, ?_⟩
      intro j hj
      cases j with
      | zero => simpa using hx
      | succ j2 =>
        have hj2 : j2 < k := by omega
        simpa using hprev j2 hj2

/-- C2 corrected/amended: the baseline is neither persisted nor reused — each
run recomputes it from its own 52-week window as the first weekly portfolio
total that is strictly positive (zero-total weeks are skipped, and it is 1
only when no week has a positive total); every index value equals
(P / B) × 100 rounded to 4 decimal digits, and the persisted
`_baselinePortfolioPrice` records the recomputed value rounded to 6. -/
theorem baseline_spec (hd : HoldingsData) (s : String → Option (List (ℤ × ℚ)))
    (lp : String → Option ℚ) (now : ℤ) :
    (buildPerf hd s lp now).baselinePortfolioPrice =
      roundTo 6 (baselinePortfolioPrice (weeklyPrices hd s now)) ∧
    (buildPerf hd s lp now).longTermIndex =
      (weeklyPrices hd s now).map
        (fun p => roundTo 4 (p.1 / baselinePortfolioPrice (weeklyPrices hd s now) * 100)) ∧
    ((∃ k, ∃ hk : k < (weeklyPrices hd s now).length,
        ((weeklyPrices hd s now).get ⟨k, hk⟩).1 =
          baselinePortfolioPrice (weeklyPrices hd s now) ∧
        0 < baselinePortfolioPrice (weeklyPrices hd s now) ∧
        ∀ j, ∀ hj : j < k, ((weeklyPrices hd s now).get ⟨j, by omega⟩).1 ≤ 0) ∨
      ((∀ p ∈ weeklyPrices hd s now, p.1 ≤ 0) ∧
        baselinePortfolioPrice (weeklyPrices hd s now) = 1)) := by
  refine ⟨rfl, rfl, ?_⟩
  cases hf : (weeklyPrices hd s now).find? (fun p => decide (0 < p.1)) with
  | none =>
    refine Or.inr ⟨?_, ?_⟩
    · intro p hp
      have hnp := List.find?_eq_none.mp hf p hp
      simpa [not_lt] using hnp
    · rw [baselinePortfolioPrice, firstNonZero, hf]
      norm_num
  | some a =>
    have hpa : (0 : ℚ) < a.1 := by simpa using List.find?_some hf
    have hbase : baselinePortfolioPrice (weeklyPrices hd s now) = a.1 := by
      rw [baselinePortfolioPrice, firstNonZero, hf]
      simp [ne_of_gt hpa]
    obtain ⟨k, hk, hget, _, hprev⟩ := find?_first_spec _ _ _ hf
    refine Or.inl ⟨k, hk, ?_, ?_, ?_⟩
    · rw [hget, hbase]
    · rw [hbase]; exact hpa
    · intro j hj
      exact not_lt.mp (by simpa using hprev j hj)

/-- A fetched series for AAA with a single data point at the current week's
label, for the C3 counterexample. -/
def c3Series : String → Option (List (ℤ × ℚ)) :=
  fun t => if t = "AAA" then some [(19734, 50)] else none

/-- C3 counterexample: on a first run (no prior document) at 2024-01-12 with
only one real data point available (far fewer than the 52 targeted), the
script generates no synthetic backfill and marks nothing: the persisted key
set contains no "backfilled" key, the written series starts at index 0 (not
at a seeded walk's 100), its last index is 100, and a re-run with the
written document in place regenerates exactly the same document instead of
being suppressed by a marker. -/
theorem c3_counterexample :
    perfDocKeys.contains "backfilled" = false ∧
    (runUpdate none cexHoldings c3Series (fun _ => none) 19734).longTermIndex.head? =
      some 0 ∧
    (runUpdate none cexHoldings c3Series (fun _ => none) 19734).latest.index = 100 ∧
    runUpdate (some (runUpdate none cexHoldings c3Series (fun _ => none) 19734)) cexHoldings
      c3Series (fun _ => none) 19734 =
      runUpdate none cexHoldings c3Series (fun _ => none) 19734 := by
  refine ⟨by decide, ?_, ?_, rfl⟩
  · with_unfolding_all rfl
  · with_unfolding_all rfl

/-- C3 corrected/amended: the code has no synthetic backfill: the persisted
document carries no backfill marker, the update is a pure function of the
run's inputs and independent of any prior document (so nothing is one-time),
and every run — the first included — writes the full 52-point window
computed from the actually fetched prices.  Identical inputs therefore give
an identical document, trivially. -/
theorem noBackfill (prior prior2 : Option PerfDoc) (hd : HoldingsData)
    (s : String → Option (List (ℤ × ℚ))) (lp : String → Option ℚ) (now : ℤ) :
    perfDocKeys.contains "backfilled" = false ∧
    runUpdate prior hd s lp now = buildPerf hd s lp now ∧
    runUpdate prior hd s lp now = runUpdate prior2 hd s lp now ∧
    (runUpdate prior hd s lp now).longTermIndex.length = 52 :=
  ⟨by decide, rfl, rfl, longTermIndex_length hd s now⟩

/-- The observable events of the fetch loop, in order: an external quote-API
call, the pacing sleep, or a fresh-cache hit (no API call made). -/
inductive FetchEvent where
  | apiCall (ticker : String)
  | sleep
  | cacheHit (ticker : String)
  deriving DecidableEq

/-- Whether an event is an external quote-API call. -/
def isApiCall : FetchEvent → Bool
  | FetchEvent.apiCall _ => true
  | _ => false

/-- The events one holding's loop iteration emits (source lines 197–215):
with a fresh usable cache no call is made; otherwise the API is called, and
the pacing sleep follows only when the call (and the cache write) succeeded —
a thrown fetch jumps to `catch`, skipping `await sleep(API_CALL_DELAY_MS)`.
`cacheFresh` and `fetchOk` are the run's cache and network outcomes per
ticker. -/
def tickerEvents (cacheFresh fetchOk : String → Bool) (t : String) : List FetchEvent :=
  if cacheFresh t then [FetchEvent.cacheHit t]
  else if fetchOk t then [FetchEvent.apiCall t, FetchEvent.sleep]
  else [FetchEvent.apiCall t]

/-- The whole fetch loop's event trace (source lines 197–227): one block per
holding, in holdings order. -/
def runEvents (cacheFresh fetchOk : String → Bool) : List String → List FetchEvent
  | [] => []
  | t :: rest => tickerEvents cacheFresh fetchOk t ++ runEvents cacheFresh fetchOk rest

/-- C4 counterexample: two holdings with a cold cache; the first fetch fails
(the API threw), the second succeeds.  The trace is
`[apiCall A, apiCall B, sleep]`: between the two successive external calls no
pacing delay elapses, because the thrown fetch skipped the sleep — the delay
is not unconditional. -/
theorem c4_counterexample :
    runEvents (fun _ => false) (fun t => t == "B") ["A", "B"] =
      [FetchEvent.apiCall "A", FetchEvent.apiCall "B", FetchEvent.sleep] ∧
    ¬ (∀ i j : Fin (runEvents (fun _ => false) (fun t => t == "B") ["A", "B"]).length,
        i < j →
        isApiCall ((runEvents (fun _ => false) (fun t => t == "B") ["A", "B"]).get i) = true →
        isApiCall ((runEvents (fun _ => false) (fun t => t == "B") ["A", "B"]).get j) = true →
        ∃ k : Fin (runEvents (fun _ => false) (fun t => t == "B") ["A", "B"]).length,
          i < k ∧ k < j ∧
          (runEvents (fun _ => false) (fun t => t == "B") ["A", "B"]).get k =
            FetchEvent.sleep) := by
  constructor
  · decide
  · decide

/-- C4 corrected/amended: the pacing delay is not unconditional; it elapses
after every *successful* fetch — the trace event right after a succeeding
API call is the sleep, so a delay separates it from any later call — while a
failed fetch is followed by no delay (see the counterexample trace). -/
theorem pacing_after_success (cacheFresh fetchOk : String → Bool) (tickers : List String)
    (i : ℕ) (t : String)
    (hcall : (runEvents cacheFresh fetchOk tickers)[i]? = some (FetchEvent.apiCall t))
    (hok : fetchOk t = true) :
    (runEvents cacheFresh fetchOk tickers)[i + 1]? = some FetchEvent.sleep := by
  induction tickers generalizing i with
  | nil => simp [runEvents] at hcall
  | cons t0 rest ih =>
    simp only [runEvents, tickerEvents] at hcall ⊢
    by_cases hc : cacheFresh t0
    · rw [if_pos hc] at hcall ⊢
      cases i with
      | zero => simp at hcall
      | succ n =>
        simp only [List.cons_append, List.nil_append, List.getElem?_cons_succ] at hcall ⊢
        exact ih n hcall
    · rw [if_neg hc] at hcall ⊢
      by_cases hf : fetchOk t0
      · rw [if_pos hf] at hcall ⊢
        cases i with
        | zero => simp [List.cons_append]
        | succ n =>
          cases n with
          | zero => simp [List.cons_append] at hcall
          | succ m =>
            simp only [List.cons_append, List.getElem?_cons_succ] at hcall ⊢
            exact ih m hcall
      · rw [if_neg hf] at hcall ⊢
        cases i with
        | zero =>
          have ht : t0 = t := by simpa [List.cons_append] using hcall
          rw [ht] at hf
          exact absurd hok hf
        | succ n =>
          simp only [List.cons_append, List.nil_append, List.getElem?_cons_succ] at hcall ⊢
          exact ih n hcall

/-- C4 witness: `pacing_after_success` at the concrete one-ticker trace with
a cold cache and a succeeding fetch — the event after the API call is the
sleep. -/
theorem pacing_after_success_witness :
    (runEvents (fun _ => false) (fun _ => true) ["A"])[1]? = some FetchEvent.sleep :=
  pacing_after_success (fun _ => false) (fun _ => true) ["A"] 0 "A" (by decide) rfl

end UpdatePerformance
